import Mathlib

/-!
Shallow embedding of the core of the hanabii repository (offline audio analysis,
path generation and synchronization scoring) over exact rational arithmetic, with
theorems checking the specification's claims against it.

JavaScript numbers are modeled as `ℚ`; float literals such as 0.05 appear as the
rationals they denote (1/20).  `Math.sqrt` is modeled by `Rat.sqrt`, which agrees
with it exactly on every input exercised by the theorems (squares of rationals).
-/

namespace Hanabii

/-! ### src/utils/math.ts -/

/-- 3D vector over ℚ (models THREE.Vector3). -/
structure Vec3 where
  x : ℚ
  y : ℚ
  z : ℚ
deriving DecidableEq, Repr, Inhabited

/-- math.ts `clamp(value, min, max) = Math.max(min, Math.min(max, value))`. -/
def clamp (value lo hi : ℚ) : ℚ := max lo (min hi value)

/-- math.ts `ema(current, previous, alpha) = alpha * current + (1 - alpha) * previous`. -/
def ema (current previous alpha : ℚ) : ℚ := alpha * current + (1 - alpha) * previous

/-- math.ts `mapRange`. -/
def mapRange (value inMin inMax outMin outMax : ℚ) : ℚ :=
  outMin + ((value - inMin) / (inMax - inMin)) * (outMax - outMin)

/-- THREE.Vector3.lerpVectors(v1, v2, alpha): componentwise v1 + (v2 - v1) * alpha. -/
def lerpVectors (v1 v2 : Vec3) (alpha : ℚ) : Vec3 :=
  { x := v1.x + (v2.x - v1.x) * alpha
    y := v1.y + (v2.y - v1.y) * alpha
    z := v1.z + (v2.z - v1.z) * alpha }

/-- `Math.sqrt` on the rational embedding: `Rat.sqrt` is exact whenever the argument
is the square of a rational (every case the theorems exercise) and is a
floor-style approximation otherwise. -/
def jsSqrt (q : ℚ) : ℚ := Rat.sqrt q

/-- JavaScript `isFinite`: every exact rational is finite.  (NaN and Infinity have no
rational counterpart; in the source they can only arise from invalid float data.) -/
def jsIsFinite (_ : ℚ) : Bool := true

/-- `Σ samples[j]²` for `j ∈ [start, start + n)` clipped to the buffer; models the
`for (j = start; j < Math.min(start + n, samples.length); j++) sum += s[j]*s[j]`
loops that appear throughout analyzer.ts. -/
def sumSquares (samples : List ℚ) (start n : ℕ) : ℚ :=
  (((samples.drop start).take n).map (fun s => s * s)).sum

/-! ### src/audio/structures.ts -/

structure PathPoint where
  time : ℚ
  position : Vec3
deriving DecidableEq, Repr, Inhabited

structure BeatEvent where
  time : ℚ
  strength : ℚ
  isDownbeat : Bool
deriving DecidableEq, Repr, Inhabited

structure Section where
  startTime : ℚ
  endTime : ℚ
  label : String
  energy : ℚ
deriving DecidableEq, Repr, Inhabited

structure PitchPoint where
  time : ℚ
  frequency : ℚ
  confidence : ℚ
deriving DecidableEq, Repr, Inhabited

structure EnergyPoint where
  time : ℚ
  energy : ℚ
deriving DecidableEq, Repr, Inhabited

/-- The SongMap fields consumed by the path generator. -/
structure SongMap where
  danceability : ℚ
  duration : ℚ
  pitchContour : List PitchPoint
  energyCurve : List EnergyPoint
deriving Repr, Inhabited

structure RealtimeFeatures where
  rms : ℚ
  spectralCentroid : ℚ
  spectralFlux : ℚ
  zcr : ℚ
  mfcc : List ℚ
deriving DecidableEq, Repr, Inhabited

/-! ### src/game/sync-tracker.ts -/

/-- `MAX_DISTANCE = 15`: distance at which sync = 0. -/
def MAX_DISTANCE : ℚ := 15

/-- `EMA_ALPHA = 0.05`: smoothing factor for displayed sync. -/
def EMA_ALPHA : ℚ := 1 / 20

/-- `SCORE_SAMPLE_INTERVAL = 0.1`: sample every 100 ms for final score. -/
def SCORE_SAMPLE_INTERVAL : ℚ := 1 / 10

/-- The mutable fields of the SyncTracker class. -/
structure SyncState where
  displaySync : ℚ
  rawSync : ℚ
  scoreSamples : List ℚ
  lastSampleTime : ℚ
  lastPathIndex : ℕ
deriving DecidableEq, Repr

/-- `SyncTracker.reset()`. -/
def resetState : SyncState :=
  { displaySync := 1, rawSync := 1, scoreSamples := [], lastSampleTime := 0, lastPathIndex := 0 }

/-- Forward scan of `findNearestPathPoint`:
`while (idx < path.length - 1 && path[idx + 1].time <= time) idx++`.
The extra fuel argument (instantiated with `path.length`, a strict bound on the
number of iterations) makes the recursion structural; the loop always reaches the
point where its guard fails before the fuel runs out. -/
def forwardScan (path : List PathPoint) (time : ℚ) : ℕ → ℕ → ℕ
  | 0, idx => idx
  | fuel + 1, idx =>
    if idx < path.length - 1 ∧ (path.getD (idx + 1) default).time ≤ time then
      forwardScan path time fuel (idx + 1)
    else idx

/-- Backward scan of `findNearestPathPoint`:
`while (idx > 0 && path[idx].time > time + 0.5) idx--` (don't go backwards too far). -/
def backwardScan (path : List PathPoint) (time : ℚ) : ℕ → ℕ
  | 0 => 0
  | idx + 1 =>
    if time + 1 / 2 < (path.getD (idx + 1) default).time then backwardScan path time idx
    else idx + 1

/-- sync-tracker.ts `findNearestPathPoint`.  Returns the interpolated nearest path
point together with the updated cached search index (the source stores that index
into `this.lastPathIndex` before returning). -/
def findNearestPathPoint (path : List PathPoint) (time : ℚ) (lastPathIndex : ℕ) :
    Option (PathPoint × ℕ) :=
  if path.length = 0 then none
  else
    let idx := backwardScan path time (forwardScan path time path.length lastPathIndex)
    if path.length - 1 ≤ idx then some (path.getD (path.length - 1) default, idx)
    else
      let p0 := path.getD idx default
      let p1 := path.getD (idx + 1) default
      let t := (time - p0.time) / (p1.time - p0.time)
      let clamped := clamp t 0 1
      some ({ time := time, position := lerpVectors p0.position p1.position clamped }, idx)

/-- sync-tracker.ts `SyncTracker.update`.  `dt` is accepted and unused, as in the
source.  The `!isFinite(distance)` guard is kept structurally even though it can
never fire over exact rationals. -/
def update (orbPosition : Vec3) (idealPath : List PathPoint) (currentTime _dt : ℚ)
    (s : SyncState) : SyncState :=
  if idealPath.length = 0 then
    { s with rawSync := 1, displaySync := 1 }
  else
    match findNearestPathPoint idealPath currentTime s.lastPathIndex with
    | none => { s with rawSync := 1, displaySync := ema 1 s.displaySync EMA_ALPHA }
    | some (nearest, idx) =>
      let dx := orbPosition.x - nearest.position.x
      let dy := orbPosition.y - nearest.position.y
      let distance := jsSqrt (dx * dx + dy * dy)
      if jsIsFinite distance = false then
        { s with lastPathIndex := idx, rawSync := 1,
                 displaySync := ema 1 s.displaySync EMA_ALPHA }
      else
        let raw := clamp (1 - distance / MAX_DISTANCE) 0 1
        let disp := ema raw s.displaySync EMA_ALPHA
        if SCORE_SAMPLE_INTERVAL ≤ currentTime - s.lastSampleTime then
          { s with lastPathIndex := idx, rawSync := raw, displaySync := disp,
                   scoreSamples := s.scoreSamples ++ [raw], lastSampleTime := currentTime }
        else
          { s with lastPathIndex := idx, rawSync := raw, displaySync := disp }

/-- sync-tracker.ts `getFinalScore`: mean of the score samples × 100, rounded
(`Math.round` rounds half toward +∞, exactly as Mathlib's `round = ⌊x + 1/2⌋`);
100 when no samples were recorded. -/
def getFinalScore (s : SyncState) : ℤ :=
  if s.scoreSamples.length = 0 then 100
  else round (s.scoreSamples.sum / (s.scoreSamples.length : ℚ) * 100)

/-- A playback session against one fixed ideal path: fold `update` over the
per-frame calls (orb position, song time, dt). -/
def runUpdates (path : List PathPoint) (calls : List (Vec3 × ℚ × ℚ)) (s : SyncState) :
    SyncState :=
  calls.foldl (fun st c => update c.1 path c.2.1 c.2.2 st) s

/-- A sequence of arbitrary `update` calls (each with its own path argument). -/
def runSession (calls : List (Vec3 × List PathPoint × ℚ × ℚ)) (s : SyncState) : SyncState :=
  calls.foldl (fun st c => update c.1 c.2.1 c.2.2.1 c.2.2.2 st) s

/-- "The orb is exactly on the interpolated path" along a whole session: at each call,
the orb's planar X/Y coordinates equal those of the interpolated path position that
`update` computes from the tracker state reached so far. -/
def onPathCalls (path : List PathPoint) : SyncState → List (Vec3 × ℚ × ℚ) → Prop
  | _, [] => True
  | s, c :: rest =>
    (match findNearestPathPoint path c.2.1 s.lastPathIndex with
     | some (p, _) => c.1.x = p.position.x ∧ c.1.y = p.position.y
     | none => True) ∧
    onPathCalls path (update c.1 path c.2.1 c.2.2 s) rest

/-! ### src/audio/analyzer.ts — BPM detection -/

/-- `while (bpm < 80) bpm *= 2`.  The source loop diverges for `bpm ≤ 0`, so the
positivity guard keeps exactly the terminating domain; on it the two agree. -/
def doubleUp (bpm : ℚ) : ℚ :=
  if h : 0 < bpm ∧ bpm < 80 then doubleUp (bpm * 2) else bpm
termination_by (⌈(80 : ℚ) / bpm⌉).toNat
decreasing_by
  have hb := h.1
  have hlt := h.2
  have hx : (1 : ℚ) < 80 / bpm := (one_lt_div hb).mpr hlt
  have hrw : 80 / (bpm * 2) = 80 / bpm / 2 := by
    rw [div_div]
  rw [hrw]
  have hc2 : (2 : ℤ) ≤ ⌈(80 : ℚ) / bpm⌉ := by
    have h1 : (1 : ℤ) < ⌈(80 : ℚ) / bpm⌉ := Int.lt_ceil.mpr (by exact_mod_cast hx)
    omega
  have hc2q : (2 : ℚ) ≤ (⌈(80 : ℚ) / bpm⌉ : ℚ) := by exact_mod_cast hc2
  have hle : (80 : ℚ) / bpm ≤ (⌈(80 : ℚ) / bpm⌉ : ℚ) := Int.le_ceil _
  have hstep : ⌈(80 : ℚ) / bpm / 2⌉ ≤ ⌈(80 : ℚ) / bpm⌉ - 1 := by
    apply Int.ceil_le.mpr
    push_cast
    linarith
  omega

/-- `while (bpm > 180) bpm /= 2` (terminates for every rational). -/
def halveDown (bpm : ℚ) : ℚ :=
  if h : 180 < bpm then halveDown (bpm / 2) else bpm
termination_by (⌈bpm / 180⌉).toNat
decreasing_by
  have hx : (1 : ℚ) < bpm / 180 := (one_lt_div (by norm_num)).mpr h
  have hrw : bpm / 2 / 180 = bpm / 180 / 2 := by
    rw [div_div, div_div, mul_comm]
  rw [hrw]
  have hc2 : (2 : ℤ) ≤ ⌈bpm / 180⌉ := by
    have h1 : (1 : ℤ) < ⌈bpm / 180⌉ := Int.lt_ceil.mpr (by exact_mod_cast hx)
    omega
  have hc2q : (2 : ℚ) ≤ (⌈bpm / 180⌉ : ℚ) := by exact_mod_cast hc2
  have hle : bpm / 180 ≤ (⌈bpm / 180⌉ : ℚ) := Int.le_ceil _
  have hstep : ⌈bpm / 180 / 2⌉ ≤ ⌈bpm / 180⌉ - 1 := by
    apply Int.ceil_le.mpr
    push_cast
    linarith
  omega

/-- Energy envelope of `detectBPM`: RMS over 20 ms windows at a 10 ms hop
(`hopSize = ⌊sampleRate/100⌋`, `windowSize = ⌊sampleRate/50⌋`). -/
def bpmEnvelope (samples : List ℚ) (sampleRate : ℕ) : List ℚ :=
  let hopSize := sampleRate / 100
  let windowSize := sampleRate / 50
  let envelopeLength := samples.length / hopSize
  (List.range envelopeLength).map (fun i =>
    let start := i * hopSize
    let stop := min (start + windowSize) samples.length
    jsSqrt (sumSquares samples start (stop - start) / ((stop - start : ℕ) : ℚ)))

/-- Half-wave-rectified first difference of the envelope (onset strength):
`diff[i-1] = max(0, envelope[i] - envelope[i-1])`. -/
def bpmDiff (envelope : List ℚ) : List ℚ :=
  (List.range (envelope.length - 1)).map (fun i =>
    max 0 (envelope.getD (i + 1) 0 - envelope.getD i 0))

/-- One autocorrelation value of the onset-strength signal at a given lag
(sum bounded to the first `min(diff.length - lag, 2000)` terms). -/
def autocorrAt (diff : List ℚ) (lag : ℕ) : ℚ :=
  let n := min (diff.length - lag) 2000
  ((List.range n).map (fun i => diff.getD i 0 * diff.getD (i + lag) 0)).sum

/-- The best-lag fold: running `(bestLag, bestCorr)` with strict `corr > bestCorr`
updates; `none` models the `-Infinity` initial correlation. -/
def bestLagScan (diff : List ℚ) (lags : List ℕ) (initLag : ℕ) : ℕ × Option ℚ :=
  lags.foldl (fun best lag =>
    let corr := autocorrAt diff lag
    match best.2 with
    | none => (lag, some corr)
    | some b => if b < corr then (lag, some corr) else best) (initLag, none)

/-- `hopSize = Math.floor(sampleRate * 0.01)` of `detectBPM`. -/
def bpmHopSize (sampleRate : ℕ) : ℕ := sampleRate / 100

/-- `envelopeSR = sampleRate / hopSize`: samples per second in the envelope domain. -/
def envelopeSR (sampleRate : ℕ) : ℚ := (sampleRate : ℚ) / ((bpmHopSize sampleRate : ℕ) : ℚ)

/-- `minLag = Math.floor(envelopeSR * 60 / 200)`: lag for 200 BPM. -/
def bpmMinLag (sampleRate : ℕ) : ℕ := (⌊envelopeSR sampleRate * 60 / 200⌋).toNat

/-- `maxLag = Math.floor(envelopeSR * 60 / 60)`: lag for 60 BPM. -/
def bpmMaxLag (sampleRate : ℕ) : ℕ := (⌊envelopeSR sampleRate * 60 / 60⌋).toNat

/-- The lag range `minLag .. min(maxLag, acLength - 1)` that the autocorrelation
loop visits (`acLength - 1` computed as an integer: the loop body never runs when
`acLength = 0` and `minLag = 0`). -/
def bpmLags (samples : List ℚ) (sampleRate : ℕ) : List ℕ :=
  let diff := bpmDiff (bpmEnvelope samples sampleRate)
  let acLength := min (bpmMaxLag sampleRate + 1) diff.length
  let lagEnd : ℤ := min ((bpmMaxLag sampleRate : ℕ) : ℤ) ((acLength : ℤ) - 1)
  List.range' (bpmMinLag sampleRate) ((lagEnd + 1 - ((bpmMinLag sampleRate : ℕ) : ℤ)).toNat)

/-- The winning lag of the autocorrelation scan. -/
def bpmBestLag (samples : List ℚ) (sampleRate : ℕ) : ℕ :=
  (bestLagScan (bpmDiff (bpmEnvelope samples sampleRate)) (bpmLags samples sampleRate)
    (bpmMinLag sampleRate)).1

/-- `detectedBPM = (envelopeSR * 60) / bestLag`, the raw tempo before folding. -/
def detectedBPMOf (samples : List ℚ) (sampleRate : ℕ) : ℚ :=
  envelopeSR sampleRate * 60 / ((bpmBestLag samples sampleRate : ℕ) : ℚ)

/-- analyzer.ts `detectBPM`: autocorrelation over lags for 60–200 BPM on the
onset-strength envelope, then normalization of the winning tempo into 80–180 BPM
by the doubling/halving loops, then `Math.round`. -/
def detectBPM (samples : List ℚ) (sampleRate : ℕ) : ℤ :=
  round (halveDown (doubleUp (detectedBPMOf samples sampleRate)))

/-! ### src/audio/analyzer.ts — beat grid -/

/-- Phase anchor of `generateBeatGrid`: the time of the frame of maximum hop energy
in the first 2 seconds (`for (i = 1; i < searchEnd; i++)`, strict `>` comparison,
running maximum starting at 0, anchor time starting at 0). -/
def firstOnsetScan (samples : List ℚ) (sampleRate : ℕ) : ℚ :=
  let hopSize := sampleRate / 100
  let searchEnd := min (2 * sampleRate / hopSize) (samples.length / hopSize)
  ((List.range' 1 (searchEnd - 1)).foldl (fun st i =>
    let energy := sumSquares samples (i * hopSize) hopSize
    if st.2 < energy then (((i * hopSize : ℕ) : ℚ) / (sampleRate : ℚ), energy) else st)
    ((0 : ℚ), (0 : ℚ))).1

/-- Per-beat strength of `generateBeatGrid`: RMS of a 1024-sample window starting at
`⌊time * sampleRate⌋`, times 5, capped at 1. -/
def beatStrength (samples : List ℚ) (sampleRate : ℕ) (time : ℚ) : ℚ :=
  let sampleIdx := (⌊time * (sampleRate : ℚ)⌋).toNat
  let energy := sumSquares samples sampleIdx 1024
  min 1 (jsSqrt (energy / 1024) * 5)

/-- The `while (time < duration)` beat-emission loop of `generateBeatGrid`.  The
source loop diverges when `beatInterval ≤ 0` (i.e. bpm ≤ 0), so the positivity
guard keeps exactly the terminating domain. -/
def beatLoop (samples : List ℚ) (sampleRate : ℕ) (beatInterval duration : ℚ)
    (time : ℚ) (beatIndex : ℕ) : List BeatEvent :=
  if h : time < duration ∧ 0 < beatInterval then
    let isDownbeat := beatIndex % 4 = 0
    let strength := beatStrength samples sampleRate time
    { time := time
      strength := if isDownbeat then min 1 (strength + 3 / 10) else strength
      isDownbeat := isDownbeat } ::
      beatLoop samples sampleRate beatInterval duration (time + beatInterval) (beatIndex + 1)
  else []
termination_by (⌈(duration - time) / beatInterval⌉).toNat
decreasing_by
  have hi := h.2
  have hrw : (duration - (time + beatInterval)) / beatInterval =
      (duration - time) / beatInterval - 1 := by
    field_simp
    ring
  rw [hrw, Int.ceil_sub_one]
  have hpos : (0 : ℚ) < (duration - time) / beatInterval :=
    div_pos (by linarith [h.1]) hi
  have h1 : (0 : ℤ) < ⌈(duration - time) / beatInterval⌉ := Int.ceil_pos.mpr hpos
  omega

/-- analyzer.ts `generateBeatGrid`: fixed `60/bpm` spacing from the first strong
onset, every 4th beat (0-indexed) a downbeat with a +0.3 strength bonus capped at 1. -/
def generateBeatGrid (samples : List ℚ) (sampleRate : ℕ) (bpm duration : ℚ) :
    List BeatEvent :=
  beatLoop samples sampleRate (60 / bpm) duration (firstOnsetScan samples sampleRate) 0

/-! ### src/audio/analyzer.ts — energy curve -/

/-- First pass of `computeEnergyCurve`: raw RMS of overlapping `2 × hop` windows for
each `i` with `i * hopSize < samples.length` (that is `⌈length / hop⌉` frames). -/
def rawRMSList (samples : List ℚ) (hopSize : ℕ) : List ℚ :=
  let numFrames := (samples.length + hopSize - 1) / hopSize
  (List.range numFrames).map (fun i =>
    let start := i * hopSize
    let stop := min (start + 2 * hopSize) samples.length
    jsSqrt (sumSquares samples start (stop - start) / ((stop - start : ℕ) : ℚ)))

/-- analyzer.ts `computeEnergyCurve`: raw RMS at ~30 fps, then global-max
normalization (`maxRMS > 0 ? rms / maxRMS : 0`). -/
def computeEnergyCurve (samples : List ℚ) (sampleRate : ℕ) : List EnergyPoint :=
  let hopSize := sampleRate / 30
  let rawRMS := rawRMSList samples hopSize
  let maxRMS := rawRMS.foldl max 0
  (List.range rawRMS.length).map (fun i =>
    { time := ((i * hopSize : ℕ) : ℚ) / (sampleRate : ℚ)
      energy := if 0 < maxRMS then rawRMS.getD i 0 / maxRMS else 0 })

/-! ### src/audio/analyzer.ts — section segmentation -/

/-- analyzer.ts `labelFromEnergy`. -/
def labelFromEnergy (energy : ℚ) (index : ℕ) : String :=
  if index = 0 then "intro"
  else if 7 / 10 < energy then "chorus"
  else if 2 / 5 < energy then "verse"
  else "bridge"

/-- Centered moving average of the energy curve (`windowSize = 90`, i.e. ±45 frames,
clipped to the curve). -/
def smoothedEnergy (energyCurve : List EnergyPoint) : List ℚ :=
  (List.range energyCurve.length).map (fun i =>
    let lo := i - 45
    let hi := min energyCurve.length (i + 45)
    let count := hi - lo
    (((energyCurve.drop lo).take count).map (fun p => p.energy)).sum / (count : ℚ))

/-- Mutable state of the change-point loop of `segmentSections`. -/
structure SegState where
  sections : List Section
  sectionStart : ℕ
  lastChangeFrame : ℕ
deriving Repr

/-- One iteration (at frame `i`) of the change-point loop of `segmentSections`:
close the current section when the smoothed energy jumps by more than 0.08 and at
least 150 frames passed since the last boundary. -/
def segStep (energyCurve : List EnergyPoint) (smoothed : List ℚ) (duration : ℚ)
    (st : SegState) (i : ℕ) : SegState :=
  let change := |smoothed.getD i 0 - smoothed.getD (i - 1) 0|
  if 2 / 25 < change ∧ 150 < i - st.lastChangeFrame then
    let startTime := (energyCurve.getD st.sectionStart { time := 0, energy := 0 }).time
    let endTime := (energyCurve.getD i { time := duration, energy := 0 }).time
    let len := i - st.sectionStart
    let avgEnergy := ((smoothed.drop st.sectionStart).take len).sum / (len : ℚ)
    { sections := st.sections ++
        [{ startTime := startTime, endTime := endTime
           label := labelFromEnergy avgEnergy st.sections.length, energy := avgEnergy }]
      sectionStart := i
      lastChangeFrame := i }
  else st

/-- The state after the `for (i = 1; i < smoothed.length; i++)` change-point loop of
`segmentSections`. -/
def segLoopState (energyCurve : List EnergyPoint) (duration : ℚ) : SegState :=
  (List.range' 1 ((smoothedEnergy energyCurve).length - 1)).foldl
    (segStep energyCurve (smoothedEnergy energyCurve) duration)
    { sections := [], sectionStart := 0, lastChangeFrame := 0 }

/-- The final section pushed by `segmentSections` after the loop (closes at
`duration`; `intro` when no earlier boundary was found, else `outro`;
`smoothed.length - sectionStart || 1` guards the average's divisor). -/
def finalSection (energyCurve : List EnergyPoint) (duration : ℚ) : Section :=
  let st := segLoopState energyCurve duration
  let smoothed := smoothedEnergy energyCurve
  let rem := smoothed.length - st.sectionStart
  { startTime := (energyCurve.getD st.sectionStart { time := 0, energy := 0 }).time
    endTime := duration
    label := if st.sections.length = 0 then "intro" else "outro"
    energy := (smoothed.drop st.sectionStart).sum / ((if rem = 0 then 1 else rem : ℕ) : ℚ) }

/-- analyzer.ts `segmentSections`: a single catch-all `intro` section for degenerate
curves (< 10 samples); otherwise change-point detection on the smoothed energy plus
the final section closing at `duration`. -/
def segmentSections (energyCurve : List EnergyPoint) (duration : ℚ) : List Section :=
  if energyCurve.length < 10 then
    [{ startTime := 0, endTime := duration, label := "intro", energy := 1 / 2 }]
  else
    (segLoopState energyCurve duration).sections ++ [finalSection energyCurve duration]

/-! ### src/game/path-generator.ts -/

def FORWARD_SPEED : ℚ := 8
def LATERAL_RANGE : ℚ := 8
def VERTICAL_RANGE : ℚ := 4
def VERTICAL_BASE : ℚ := 2
def SMOOTHING_WINDOW : ℕ := 25

/-- Binary search `while (lo < hi - 1) { mid = (lo + hi) >> 1; ... }` used by the
interpolators.  Fuel-structured; the call sites pass `times.length`, a strict bound
on the iteration count, so the loop always runs until its guard fails. -/
def binSearch (times : List ℚ) (time : ℚ) : ℕ → ℕ → ℕ → ℕ × ℕ
  | 0, lo, hi => (lo, hi)
  | fuel + 1, lo, hi =>
    if lo + 1 < hi then
      let mid := (lo + hi) / 2
      if times.getD mid 0 ≤ time then binSearch times time fuel mid hi
      else binSearch times time fuel lo mid
    else (lo, hi)

/-- path-generator.ts `interpolatePitch`: confidence-weighted interpolation between
the bracketing contour points, with 250 Hz fallbacks. -/
def interpolatePitch (time : ℚ) (contour : List PitchPoint) (times : List ℚ) : ℚ :=
  if contour.length = 0 then 250
  else
    let lohi := binSearch times time times.length 0 (times.length - 1)
    let p0 := contour.getD lohi.1 default
    let p1 := contour.getD lohi.2 default
    if p0.time = p1.time then p0.frequency
    else
      let t := (time - p0.time) / (p1.time - p0.time)
      let w0 := p0.confidence
      let w1 := p1.confidence
      if w0 + w1 < 1 / 100 then 250
      else
        let denom := w0 * (1 - t) + w1 * t
        if denom < 1 / 1000 then 250
        else (p0.frequency * w0 * (1 - t) + p1.frequency * w1 * t) / denom

/-- path-generator.ts `interpolateEnergy`: linear interpolation between the
bracketing energy points. -/
def interpolateEnergy (time : ℚ) (curve : List EnergyPoint) (times : List ℚ) : ℚ :=
  if curve.length = 0 then 1 / 2
  else
    let lohi := binSearch times time times.length 0 (times.length - 1)
    let p0 := curve.getD lohi.1 default
    let p1 := curve.getD lohi.2 default
    if p0.time = p1.time then p0.energy
    else
      let t := (time - p0.time) / (p1.time - p0.time)
      p0.energy * (1 - t) + p1.energy * t

/-- `Math.min(...validPitches.map(p => p.frequency))` with default 100 on an empty
list (source: ternary on `validPitches.length > 0`). -/
def minFreq : List PitchPoint → ℚ
  | [] => 100
  | p :: rest => rest.foldl (fun a q => min a q.frequency) p.frequency

/-- `Math.max(...validPitches.map(p => p.frequency))` with default 500 on an empty
list (source: ternary on `validPitches.length > 0`). -/
def maxFreq : List PitchPoint → ℚ
  | [] => 500
  | p :: rest => rest.foldl (fun a q => max a q.frequency) p.frequency

/-- Pitch range of `generateIdealPath` (continued): the ±50 Hz degenerate-range
expansion guard. -/
def pitchRange (contour : List PitchPoint) : ℚ × ℚ :=
  let validPitches := contour.filter (fun p =>
    decide (3 / 10 < p.confidence) && decide (50 < p.frequency))
  let minPitch := minFreq validPitches
  let maxPitch := maxFreq validPitches
  if maxPitch - minPitch < 1 then (minPitch - 50, maxPitch + 50) else (minPitch, maxPitch)

/-- The raw (pre-smoothing) sampling pass of `generateIdealPath`: `⌊duration * 15⌋`
samples at 15 points/s, with the `if (time > duration) break` modeled by
`takeWhile` (break semantics: stop at the first violating sample). -/
def rawPathPoints (songMap : SongMap) : List PathPoint :=
  let numPoints := (⌊songMap.duration * 15⌋).toNat
  let pitchTimes := songMap.pitchContour.map (fun p => p.time)
  let energyTimes := songMap.energyCurve.map (fun p => p.time)
  let mm := pitchRange songMap.pitchContour
  let points := (List.range numPoints).map (fun (i : ℕ) =>
    let time := (i : ℚ) / 15
    let z := -time * FORWARD_SPEED
    let pitch := interpolatePitch time songMap.pitchContour pitchTimes
    let normalizedPitch := mapRange (clamp pitch mm.1 mm.2) mm.1 mm.2 (-1) 1
    let movementScale := 1 / 2 + songMap.danceability * (1 / 2)
    let x := normalizedPitch * LATERAL_RANGE * movementScale
    let energy := interpolateEnergy time songMap.energyCurve energyTimes
    let y := VERTICAL_BASE + energy * VERTICAL_RANGE
    { time := time, position := { x := x, y := y, z := z } : PathPoint })
  points.takeWhile (fun p => decide (p.time ≤ songMap.duration))

/-- path-generator.ts `smoothPath`: centered moving average over
`j ∈ [max(0, i - ⌊w/2⌋), min(length - 1, i + ⌊w/2⌋)]` (inclusive), keeping each
point's time. -/
def smoothPath (points : List PathPoint) (windowSize : ℕ) : List PathPoint :=
  let half := windowSize / 2
  (List.range points.length).map (fun i =>
    let lo := i - half
    let hi := min (points.length - 1) (i + half)
    let count := hi + 1 - lo
    let window := (points.drop lo).take count
    { time := (points.getD i default).time
      position :=
        { x := (window.map (fun p => p.position.x)).sum / (count : ℚ)
          y := (window.map (fun p => p.position.y)).sum / (count : ℚ)
          z := (window.map (fun p => p.position.z)).sum / (count : ℚ) } })

/-- path-generator.ts `generateIdealPath`: raw sampling followed by two smoothing
passes (window 25, then 12). -/
def generateIdealPath (songMap : SongMap) : List PathPoint :=
  smoothPath (smoothPath (rawPathPoints songMap) SMOOTHING_WINDOW) (SMOOTHING_WINDOW / 2)

/-! ### src/audio/realtime.ts -/

/-- One per-frame snapshot delivered by the analyser node. -/
structure AnalyserSnapshot where
  timeDomainData : List ℚ
  freqData : List ℚ
deriving Repr, Inhabited

/-- Zero-crossing count of realtime.ts: sign changes between consecutive
time-domain samples (`d[i] ≥ 0 ∧ d[i-1] < 0` or `d[i] < 0 ∧ d[i-1] ≥ 0`). -/
def countCrossings (l : List ℚ) : ℕ :=
  ((List.range (l.length - 1)).filter (fun i =>
    let a := l.getD i 0
    let b := l.getD (i + 1) 0
    decide ((0 ≤ b ∧ a < 0) ∨ (b < 0 ∧ 0 ≤ a)))).length

/-- realtime.ts `extractRealtimeFeatures`.  `dbToMag` models the float conversion
`Math.pow(10, dB / 20)` from decibels to linear magnitude; `prevSpectrum` is the
module-level previous-frame spectrum consumed by the flux computation; `analyser`
is `none` when no analyser node exists (playback not started). -/
def extractRealtimeFeatures (dbToMag : ℚ → ℚ) (analyser : Option AnalyserSnapshot)
    (prevSpectrum : List ℚ) : RealtimeFeatures :=
  match analyser with
  | none => { rms := 0, spectralCentroid := 0, spectralFlux := 0, zcr := 0, mfcc := [] }
  | some snap =>
    let td := snap.timeDomainData
    let rms := jsSqrt ((td.map (fun s => s * s)).sum / (td.length : ℚ))
    let zcr := (countCrossings td : ℚ) / ((td.length - 1 : ℕ) : ℚ)
    let spectrum := snap.freqData
    let mags := spectrum.map dbToMag
    let weightedSum :=
      ((List.range mags.length).map (fun (i : ℕ) => (i : ℚ) * mags.getD i 0)).sum
    let totalMag := mags.sum
    let spectralCentroid :=
      if 0 < totalMag then weightedSum / totalMag / (spectrum.length : ℚ) else 0
    let flux := ((List.range spectrum.length).map (fun i =>
      let d := mags.getD i 0 - dbToMag (prevSpectrum.getD i 0)
      if 0 < d then d else 0)).sum
    let bandSize := spectrum.length / 6
    let mfcc := (List.range 6).map (fun b =>
      ((mags.drop (b * bandSize)).take bandSize).sum / (bandSize : ℚ))
    { rms := rms, spectralCentroid := spectralCentroid, spectralFlux := flux,
      zcr := zcr, mfcc := mfcc }

/-! ## Helper lemmas -/

theorem jsSqrt_nonneg (q : ℚ) : 0 ≤ jsSqrt q := Rat.sqrt_nonneg q

theorem jsSqrt_sq {q : ℚ} (h : 0 ≤ q) : jsSqrt (q * q) = q := by
  rw [jsSqrt, Rat.sqrt_eq, abs_of_nonneg h]

theorem jsSqrt_zero : jsSqrt 0 = 0 := by
  have := jsSqrt_sq (q := 0) le_rfl
  simpa using this

theorem clamp_le {v lo hi : ℚ} (h : lo ≤ hi) : clamp v lo hi ≤ hi := by
  rw [clamp]
  exact max_le h (min_le_left _ _)

theorem le_clamp (v lo hi : ℚ) : lo ≤ clamp v lo hi := le_max_left _ _

theorem clamp_eq_of_nonpos {v lo hi : ℚ} (hv : v ≤ lo) (hlh : lo ≤ hi) :
    clamp v lo hi = lo := by
  rw [clamp, min_eq_right (hv.trans hlh), max_eq_left hv]

theorem ema_mem_unit {x y : ℚ} (hx0 : 0 ≤ x) (hx1 : x ≤ 1) (hy0 : 0 ≤ y) (hy1 : y ≤ 1) :
    0 ≤ ema x y EMA_ALPHA ∧ ema x y EMA_ALPHA ≤ 1 := by
  rw [ema, EMA_ALPHA]
  constructor <;> nlinarith

theorem sumSquares_nonneg (samples : List ℚ) (start n : ℕ) :
    0 ≤ sumSquares samples start n := by
  rw [sumSquares]
  apply List.sum_nonneg
  intro x hx
  obtain ⟨s, _, rfl⟩ := List.mem_map.mp hx
  exact mul_self_nonneg s

theorem le_foldl_max (l : List ℚ) (a : ℚ) : a ≤ l.foldl max a := by
  induction l generalizing a with
  | nil => simp
  | cons h t ih => exact le_trans (le_max_left a h) (ih (max a h))

theorem mem_le_foldl_max {x : ℚ} {l : List ℚ} (a : ℚ) (hx : x ∈ l) :
    x ≤ l.foldl max a := by
  induction l generalizing a with
  | nil => cases hx
  | cons h t ih =>
    rcases List.mem_cons.mp hx with rfl | hxt
    · exact le_trans (le_max_right a x) (le_foldl_max t (max a x))
    · exact ih (max a h) hxt

theorem foldl_max_mem_or (l : List ℚ) (a : ℚ) : l.foldl max a = a ∨ l.foldl max a ∈ l := by
  induction l generalizing a with
  | nil => simp
  | cons h t ih =>
    rcases ih (max a h) with heq | hmem
    · rcases max_choice a h with hc | hc
      · left
        rw [List.foldl_cons, heq, hc]
      · right
        rw [List.foldl_cons, heq, hc]
        exact List.mem_cons_self _ _
    · right
      exact List.mem_cons_of_mem _ hmem

theorem sum_of_all_ones {l : List ℚ} (h : ∀ x ∈ l, x = 1) : l.sum = (l.length : ℚ) := by
  induction l with
  | nil => simp
  | cons hd t ih =>
    have hh := h hd (List.mem_cons_self _ _)
    have ht : ∀ x ∈ t, x = 1 := fun x hx => h x (List.mem_cons_of_mem _ hx)
    rw [List.sum_cons, ih ht, hh, List.length_cons]
    push_cast
    ring

theorem round_bounds {x : ℚ} {a b : ℤ} (h0 : (a : ℚ) ≤ x) (h1 : x ≤ (b : ℚ)) :
    a ≤ round x ∧ round x ≤ b := by
  rw [round_eq]
  constructor
  · apply Int.le_floor.mpr
    linarith
  · have : ⌊x + 1 / 2⌋ < b + 1 := by
      apply Int.floor_lt.mpr
      push_cast
      linarith
    omega

theorem findNearestPathPoint_isSome (path : List PathPoint) (t : ℚ) (j : ℕ)
    (hp : path ≠ []) : (findNearestPathPoint path t j).isSome = true := by
  have hlen : ¬ path.length = 0 := fun h => hp (List.length_eq_zero.mp h)
  simp only [findNearestPathPoint, if_neg hlen]
  split <;> rfl

/-! ## Claim theorems -/

/-- C2 — Sync tracker degradation: whenever `update` runs its main branch (a nearest
interpolated path point was found), the resulting `rawSync` equals
`clamp(1 - distance / maxDistance, 0, 1)`; a computed planar distance equal to
`maxDistance = 15` (or larger) yields `rawSync = 0`, and `rawSync` is never
negative. -/
theorem syncTracker_degradation (s : SyncState) (path : List PathPoint) (orb : Vec3)
    (t dt d : ℚ) (p : PathPoint) (i : ℕ)
    (hfind : findNearestPathPoint path t s.lastPathIndex = some (p, i))
    (hd : d = jsSqrt ((orb.x - p.position.x) * (orb.x - p.position.x) +
                      (orb.y - p.position.y) * (orb.y - p.position.y))) :
    (update orb path t dt s).rawSync = clamp (1 - d / MAX_DISTANCE) 0 1 ∧
    (MAX_DISTANCE ≤ d → (update orb path t dt s).rawSync = 0) ∧
    0 ≤ (update orb path t dt s).rawSync := by
  have hne : ¬ path.length = 0 := by
    intro h0
    rw [findNearestPathPoint, if_pos h0] at hfind
    cases hfind
  have hraw : (update orb path t dt s).rawSync =
      clamp (1 - d / MAX_DISTANCE) 0 1 := by
    rw [update, if_neg hne, hfind]
    simp only [jsIsFinite, Bool.true_eq_false, if_false, ← hd]
    split <;> rfl
  refine ⟨hraw, fun hge => ?_, ?_⟩
  · rw [hraw]
    apply clamp_eq_of_nonpos _ (by norm_num)
    rw [MAX_DISTANCE] at hge
    have h15 : (0 : ℚ) < 15 := by norm_num
    rw [MAX_DISTANCE]
    have : (1 : ℚ) ≤ d / 15 := (le_div_iff₀ h15).mpr (by linarith)
    linarith
  · rw [hraw]
    exact le_clamp _ _ _

/-- C2 witness: a path point at the origin and the orb at planar offset 15 gives a
computed distance of exactly `maxDistance` and `rawSync = 0`. -/
theorem syncTracker_degradation_witness :
    findNearestPathPoint [{ time := 0, position := ⟨0, 0, 0⟩ }] 0 0 =
      some ({ time := 0, position := ⟨0, 0, 0⟩ }, 0) ∧
    (15 : ℚ) = jsSqrt ((((⟨15, 0, 0⟩ : Vec3)).x - (⟨0, 0, 0⟩ : Vec3).x) *
        ((⟨15, 0, 0⟩ : Vec3).x - (⟨0, 0, 0⟩ : Vec3).x) +
        ((⟨15, 0, 0⟩ : Vec3).y - (⟨0, 0, 0⟩ : Vec3).y) *
        ((⟨15, 0, 0⟩ : Vec3).y - (⟨0, 0, 0⟩ : Vec3).y)) ∧
    (update ⟨15, 0, 0⟩ [{ time := 0, position := ⟨0, 0, 0⟩ }] 0 0 resetState).rawSync = 0 := by
  have h1 : findNearestPathPoint [{ time := 0, position := ⟨0, 0, 0⟩ }] 0 0 =
      some ({ time := 0, position := ⟨0, 0, 0⟩ }, 0) := by
    rw [findNearestPathPoint]
    norm_num [forwardScan, backwardScan]
  have h2 : (15 : ℚ) = jsSqrt ((15 - 0) * (15 - 0) + (0 - 0) * (0 - 0)) := by
    rw [show ((15 : ℚ) - 0) * (15 - 0) + (0 - 0) * (0 - 0) = 15 * 15 by norm_num]
    rw [jsSqrt_sq (by norm_num)]
  exact ⟨h1, h2,
    (syncTracker_degradation resetState _ _ 0 0 15 _ 0 h1 h2).2.1
      (by rw [MAX_DISTANCE])⟩

/-- C3 counterexample: for an `update` call with an empty path, `displaySync` is set
directly to 1.0 and not to the one-step EMA value (here the state has
`displaySync = 1/2`; the EMA step would give 21/40 ≠ 1). -/
theorem update_emptyPath_counterexample :
    (update ⟨0, 0, 0⟩ [] 0 0
        ({ displaySync := 1 / 2, rawSync := 1, scoreSamples := [], lastSampleTime := 0,
           lastPathIndex := 0 } : SyncState)).displaySync = 1 ∧
    ema 1 (1 / 2) EMA_ALPHA = 21 / 40 ∧ (1 : ℚ) ≠ 21 / 40 := by
  refine ⟨by rw [update]; rfl, by rw [ema, EMA_ALPHA]; norm_num, by norm_num⟩

/-- C3 (amended) — degenerate-input handling of `SyncTracker.update`: with an empty
path, `rawSync` is set to 1.0 and `displaySync` is set directly to 1.0 (not by an
EMA step), and the call is total (no exception); with a non-empty path the nearest
interpolated path position is always defined, so the undefined-nearest EMA branch
is unreachable (and over exact arithmetic the computed distance is always finite). -/
theorem update_degenerate_amended :
    (∀ (orb : Vec3) (t dt : ℚ) (s : SyncState),
      (update orb [] t dt s).rawSync = 1 ∧ (update orb [] t dt s).displaySync = 1) ∧
    (∀ (path : List PathPoint) (t : ℚ) (j : ℕ), path ≠ [] →
      (findNearestPathPoint path t j).isSome = true) := by
  constructor
  · intro orb t dt s
    constructor <;> (rw [update]; rfl)
  · intro path t j hp
    exact findNearestPathPoint_isSome path t j hp

/-- C3 witness: concrete instances of both parts of the amended claim. -/
theorem update_degenerate_amended_witness :
    (update ⟨0, 0, 0⟩ [] 0 0 resetState).rawSync = 1 ∧
    (([{ time := 0, position := ⟨0, 0, 0⟩ }] : List PathPoint) ≠ []) ∧
    (findNearestPathPoint [{ time := 0, position := ⟨0, 0, 0⟩ }] 0 0).isSome = true :=
  ⟨(update_degenerate_amended.1 ⟨0, 0, 0⟩ 0 0 resetState).1, by simp,
    update_degenerate_amended.2 [{ time := 0, position := ⟨0, 0, 0⟩ }] 0 0 (by simp)⟩

/-- Invariant for the perfect-sync round trip: raw sync is 1 and every recorded
score sample is 1. -/
def perfectInv (s : SyncState) : Prop :=
  s.rawSync = 1 ∧ ∀ x ∈ s.scoreSamples, x = 1

theorem update_onPath_step (path : List PathPoint) (hp : path ≠ []) (orb : Vec3)
    (t dt : ℚ) (s : SyncState)
    (hon : match findNearestPathPoint path t s.lastPathIndex with
           | some (p, _) => orb.x = p.position.x ∧ orb.y = p.position.y
           | none => True)
    (hs : perfectInv s) : perfectInv (update orb path t dt s) := by
  simp only [perfectInv] at hs ⊢
  have hne : ¬ path.length = 0 := fun h => hp (List.length_eq_zero.mp h)
  rw [update, if_neg hne]
  cases hfind : findNearestPathPoint path t s.lastPathIndex with
  | none => exact ⟨rfl, hs.2⟩
  | some pi =>
    obtain ⟨p, idx⟩ := pi
    rw [hfind] at hon
    simp only at hon
    have hdx : orb.x - p.position.x = 0 := by rw [hon.1]; ring
    have hdy : orb.y - p.position.y = 0 := by rw [hon.2]; ring
    have hsq : jsSqrt ((orb.x - p.position.x) * (orb.x - p.position.x) +
        (orb.y - p.position.y) * (orb.y - p.position.y)) = 0 := by
      rw [hdx, hdy]
      simpa using jsSqrt_zero
    have hclamp : clamp (1 - jsSqrt ((orb.x - p.position.x) * (orb.x - p.position.x) +
        (orb.y - p.position.y) * (orb.y - p.position.y)) / MAX_DISTANCE) 0 1 = 1 := by
      rw [hsq, MAX_DISTANCE, clamp]
      norm_num
    simp only [jsIsFinite, Bool.true_eq_false, if_false, hclamp]
    split
    · refine ⟨rfl, ?_⟩
      intro x hx
      rcases List.mem_append.mp hx with hx1 | hx2
      · exact hs.2 x hx1
      · simpa using hx2
    · exact ⟨rfl, hs.2⟩

theorem runUpdates_onPath_preserves (path : List PathPoint) (hp : path ≠ []) :
    ∀ (calls : List (Vec3 × ℚ × ℚ)) (s : SyncState),
      onPathCalls path s calls → perfectInv s → perfectInv (runUpdates path calls s) := by
  intro calls
  induction calls with
  | nil => intro s _ hs; exact hs
  | cons c rest ih =>
    intro s hc hs
    simp only [onPathCalls] at hc
    rw [runUpdates, List.foldl_cons]
    exact ih (update c.1 path c.2.1 c.2.2 s) hc.2
      (update_onPath_step path hp c.1 c.2.1 c.2.2 s hc.1 hs)

/-- C1 — Sync tracker round trip: against a non-empty ideal path, if at every update
call the orb's planar position equals the interpolated path position that the
tracker computes at the current time, then `rawSync = 1` after every update (every
prefix of the session), every recorded score sample is 1, and `getFinalScore`
returns 100 at the end of the session. -/
theorem syncTracker_roundTrip (path : List PathPoint) (calls : List (Vec3 × ℚ × ℚ))
    (hp : path ≠ []) (hc : onPathCalls path resetState calls) :
    (∀ n : ℕ, (runUpdates path (calls.take n) resetState).rawSync = 1) ∧
    getFinalScore (runUpdates path calls resetState) = 100 := by
  have hres : perfectInv resetState := by
    constructor
    · rfl
    · intro x hx
      cases hx
  have htake : ∀ (n : ℕ) (calls' : List (Vec3 × ℚ × ℚ)) (s : SyncState),
      onPathCalls path s calls' → perfectInv s →
      perfectInv (runUpdates path (calls'.take n) s) := by
    intro n
    induction n with
    | zero => intro calls' s _ hs; exact hs
    | succ n ihn =>
      intro calls' s hc' hs
      cases calls' with
      | nil => exact hs
      | cons c rest =>
        simp only [onPathCalls] at hc'
        rw [List.take_succ_cons, runUpdates, List.foldl_cons]
        exact ihn rest (update c.1 path c.2.1 c.2.2 s) hc'.2
          (update_onPath_step path hp c.1 c.2.1 c.2.2 s hc'.1 hs)
  have hfinal : perfectInv (runUpdates path calls resetState) :=
    runUpdates_onPath_preserves path hp calls resetState hc hres
  refine ⟨fun n => (htake n calls resetState hc hres).1, ?_⟩
  rcases hfinal with ⟨-, hsamples⟩
  rw [getFinalScore]
  by_cases hlen : (runUpdates path calls resetState).scoreSamples.length = 0
  · rw [if_pos hlen]
  · rw [if_neg hlen]
    rw [sum_of_all_ones hsamples]
    rw [div_self (by exact_mod_cast hlen)]
    rw [one_mul, show (100 : ℚ) = ((100 : ℤ) : ℚ) by norm_num, round_intCast]

/-- C1 witness: a one-point path with the orb exactly on it. -/
theorem syncTracker_roundTrip_witness :
    (([{ time := 0, position := ⟨0, 2, 0⟩ }] : List PathPoint) ≠ []) ∧
    onPathCalls [{ time := 0, position := ⟨0, 2, 0⟩ }] resetState [(⟨0, 2, 5⟩, 0, 1 / 60)] ∧
    (runUpdates [{ time := 0, position := ⟨0, 2, 0⟩ }] [(⟨0, 2, 5⟩, 0, 1 / 60)]
      resetState).rawSync = 1 ∧
    getFinalScore (runUpdates [{ time := 0, position := ⟨0, 2, 0⟩ }]
      [(⟨0, 2, 5⟩, 0, 1 / 60)] resetState) = 100 := by
  have hfind : findNearestPathPoint [{ time := 0, position := ⟨0, 2, 0⟩ }] 0 0 =
      some ({ time := 0, position := ⟨0, 2, 0⟩ }, 0) := by
    rw [findNearestPathPoint]
    norm_num [forwardScan, backwardScan]
  have hp : (([{ time := 0, position := ⟨0, 2, 0⟩ }] : List PathPoint) ≠ []) := by simp
  have hc : onPathCalls [{ time := 0, position := ⟨0, 2, 0⟩ }] resetState
      [(⟨0, 2, 5⟩, 0, 1 / 60)] := by
    simp only [onPathCalls, hfind]
    exact ⟨⟨rfl, rfl⟩, trivial⟩
  have h := syncTracker_roundTrip _ _ hp hc
  exact ⟨hp, hc, h.1 1, h.2⟩

/-- Invariant for C10: raw and displayed sync and every recorded score sample lie
in [0, 1]. -/
def boundedInv (s : SyncState) : Prop :=
  0 ≤ s.rawSync ∧ s.rawSync ≤ 1 ∧ 0 ≤ s.displaySync ∧ s.displaySync ≤ 1 ∧
  ∀ x ∈ s.scoreSamples, 0 ≤ x ∧ x ≤ 1

theorem update_preserves_bounded (orb : Vec3) (path : List PathPoint) (t dt : ℚ)
    (s : SyncState) (hs : boundedInv s) : boundedInv (update orb path t dt s) := by
  obtain ⟨h0, h1, h2, h3, h4⟩ := hs
  simp only [boundedInv]
  rw [update]
  split
  · exact ⟨by norm_num, by norm_num, by norm_num, by norm_num, h4⟩
  · cases hfind : findNearestPathPoint path t s.lastPathIndex with
    | none =>
      have hd := ema_mem_unit (x := 1) (by norm_num) (by norm_num) h2 h3
      exact ⟨by norm_num, by norm_num, hd.1, hd.2, h4⟩
    | some pi =>
      obtain ⟨p, idx⟩ := pi
      have hraw0 : (0 : ℚ) ≤ clamp (1 - jsSqrt ((orb.x - p.position.x) * (orb.x - p.position.x) +
          (orb.y - p.position.y) * (orb.y - p.position.y)) / MAX_DISTANCE) 0 1 :=
        le_clamp _ _ _
      have hraw1 : clamp (1 - jsSqrt ((orb.x - p.position.x) * (orb.x - p.position.x) +
          (orb.y - p.position.y) * (orb.y - p.position.y)) / MAX_DISTANCE) 0 1 ≤ 1 :=
        clamp_le (by norm_num)
      have hdisp := ema_mem_unit hraw0 hraw1 h2 h3
      simp only [jsIsFinite, Bool.true_eq_false, if_false]
      split
      · refine ⟨hraw0, hraw1, hdisp.1, hdisp.2, ?_⟩
        intro x hx
        rcases List.mem_append.mp hx with hx1 | hx2
        · exact h4 x hx1
        · rw [List.mem_singleton] at hx2
          rw [hx2]
          exact ⟨hraw0, hraw1⟩
      · exact ⟨hraw0, hraw1, hdisp.1, hdisp.2, h4⟩

theorem sum_le_length {l : List ℚ} (h : ∀ x ∈ l, x ≤ 1) : l.sum ≤ (l.length : ℚ) := by
  induction l with
  | nil => simp
  | cons hd t ih =>
    have hh := h hd (List.mem_cons_self _ _)
    have ht : ∀ x ∈ t, x ≤ 1 := fun x hx => h x (List.mem_cons_of_mem _ hx)
    rw [List.sum_cons, List.length_cons]
    push_cast [List.length_cons]
    linarith [ih ht]

/-- C10 — Invariant from `reset()`: after any sequence of `update` calls starting
from the reset state, `rawSync` and `displaySync` lie in [0, 1], every recorded
score sample lies in [0, 1], and `getFinalScore` returns an integer in [0, 100]. -/
theorem syncState_invariant (calls : List (Vec3 × List PathPoint × ℚ × ℚ)) :
    boundedInv (runSession calls resetState) ∧
    0 ≤ getFinalScore (runSession calls resetState) ∧
    getFinalScore (runSession calls resetState) ≤ 100 := by
  have hres : boundedInv resetState := by
    refine ⟨by norm_num [resetState], by norm_num [resetState], by norm_num [resetState],
      by norm_num [resetState], ?_⟩
    intro x hx
    rw [resetState] at hx
    cases hx
  have hrun : ∀ (cs : List (Vec3 × List PathPoint × ℚ × ℚ)) (s : SyncState),
      boundedInv s → boundedInv (runSession cs s) := by
    intro cs
    induction cs with
    | nil => intro s hs; exact hs
    | cons c rest ih =>
      intro s hs
      rw [runSession, List.foldl_cons]
      exact ih (update c.1 c.2.1 c.2.2.1 c.2.2.2 s)
        (update_preserves_bounded c.1 c.2.1 c.2.2.1 c.2.2.2 s hs)
  have hfinal := hrun calls resetState hres
  refine ⟨hfinal, ?_⟩
  rw [getFinalScore]
  split
  · norm_num
  · rename_i hlen
    have hlpos : (0 : ℚ) < ((runSession calls resetState).scoreSamples.length : ℚ) := by
      have : (runSession calls resetState).scoreSamples.length ≠ 0 := hlen
      positivity
    have hsum0 : (0 : ℚ) ≤ (runSession calls resetState).scoreSamples.sum :=
      List.sum_nonneg (fun x hx => (hfinal.2.2.2.2 x hx).1)
    have hsum1 : (runSession calls resetState).scoreSamples.sum ≤
        ((runSession calls resetState).scoreSamples.length : ℚ) :=
      sum_le_length (fun x hx => (hfinal.2.2.2.2 x hx).2)
    have havg0 : (0 : ℚ) ≤ (runSession calls resetState).scoreSamples.sum /
        ((runSession calls resetState).scoreSamples.length : ℚ) :=
      div_nonneg hsum0 hlpos.le
    have havg1 : (runSession calls resetState).scoreSamples.sum /
        ((runSession calls resetState).scoreSamples.length : ℚ) ≤ 1 :=
      (div_le_one hlpos).mpr hsum1
    have := round_bounds (x := (runSession calls resetState).scoreSamples.sum /
        ((runSession calls resetState).scoreSamples.length : ℚ) * 100)
      (a := 0) (b := 100) (by push_cast; linarith) (by push_cast; linarith)
    exact this

/-- C9 — With no analyser node available, `extractRealtimeFeatures` returns the
well-defined zero-valued record: rms, spectralCentroid, spectralFlux and zcr all 0
and an empty (hence trivially zero-valued) band-energy list, for any decibel
conversion function and any retained previous spectrum — no failure path exists. -/
theorem extractRealtimeFeatures_noAnalyser (dbToMag : ℚ → ℚ) (prev : List ℚ) :
    extractRealtimeFeatures dbToMag none prev =
      { rms := 0, spectralCentroid := 0, spectralFlux := 0, zcr := 0, mfcc := [] } := rfl

theorem rawRMSList_nonneg {r : ℚ} {samples : List ℚ} {hopSize : ℕ}
    (hr : r ∈ rawRMSList samples hopSize) : 0 ≤ r := by
  rw [rawRMSList] at hr
  obtain ⟨i, -, rfl⟩ := List.mem_map.mp hr
  exact jsSqrt_nonneg _

/-- C7 — `computeEnergyCurve` normalization: every output energy lies in [0, 1]; if
every raw windowed RMS is 0 (silent buffer) then every output energy is exactly 0
(the division is skipped, so no division by zero); and if some raw RMS is nonzero
then some output energy is exactly 1 (global-max normalization). -/
theorem computeEnergyCurve_normalization (samples : List ℚ) (sampleRate : ℕ) :
    (∀ pt ∈ computeEnergyCurve samples sampleRate, 0 ≤ pt.energy ∧ pt.energy ≤ 1) ∧
    ((∀ r ∈ rawRMSList samples (sampleRate / 30), r = 0) →
      ∀ pt ∈ computeEnergyCurve samples sampleRate, pt.energy = 0) ∧
    ((∃ r ∈ rawRMSList samples (sampleRate / 30), r ≠ 0) →
      ∃ pt ∈ computeEnergyCurve samples sampleRate, pt.energy = 1) := by
  set l := rawRMSList samples (sampleRate / 30) with hl
  set m := l.foldl max 0 with hm
  have hm0 : 0 ≤ m := le_foldl_max l 0
  have hcurve : computeEnergyCurve samples sampleRate = (List.range l.length).map (fun i =>
      { time := ((i * (sampleRate / 30) : ℕ) : ℚ) / (sampleRate : ℚ)
        energy := if 0 < m then l.getD i 0 / m else 0 : EnergyPoint }) := by
    rw [computeEnergyCurve]
  refine ⟨?_, ?_, ?_⟩
  · intro pt hpt
    rw [hcurve] at hpt
    obtain ⟨i, hi, rfl⟩ := List.mem_map.mp hpt
    rw [List.mem_range] at hi
    simp only
    split
    · rename_i hmpos
      have hmem : l.getD i 0 ∈ l := by
        rw [List.getD_eq_getElem _ _ hi]
        exact List.getElem_mem hi
      constructor
      · exact div_nonneg (rawRMSList_nonneg hmem) hm0
      · exact (div_le_one hmpos).mpr (mem_le_foldl_max 0 hmem)
    · exact ⟨le_refl 0, zero_le_one⟩
  · intro hall pt hpt
    have hmz : m = 0 := by
      rcases foldl_max_mem_or l 0 with h | h
      · exact h
      · exact hall m h
    rw [hcurve] at hpt
    obtain ⟨i, hi, rfl⟩ := List.mem_map.mp hpt
    simp only [hmz]
    norm_num
  · intro hex
    obtain ⟨r, hrl, hrne⟩ := hex
    have hrpos : 0 < r := lt_of_le_of_ne (rawRMSList_nonneg hrl) (Ne.symm hrne)
    have hmpos : 0 < m := lt_of_lt_of_le hrpos (mem_le_foldl_max 0 hrl)
    have hmmem : m ∈ l := by
      rcases foldl_max_mem_or l 0 with h | h
      · exfalso
        rw [hm, h] at hmpos
        exact lt_irrefl 0 hmpos
      · exact h
    obtain ⟨i, hi, hgi⟩ := List.mem_iff_getElem.mp hmmem
    refine ⟨{ time := ((i * (sampleRate / 30) : ℕ) : ℚ) / (sampleRate : ℚ)
              energy := if 0 < m then l.getD i 0 / m else 0 }, ?_, ?_⟩
    · rw [hcurve]
      exact List.mem_map.mpr ⟨i, List.mem_range.mpr hi, rfl⟩
    · simp only [if_pos hmpos]
      rw [List.getD_eq_getElem _ _ hi, hgi]
      exact div_self (ne_of_gt hmpos)

/-- C7 witness: a silent two-sample buffer yields an all-zero curve; a loud constant
buffer yields peak energy exactly 1. -/
theorem computeEnergyCurve_normalization_witness :
    (∀ r ∈ rawRMSList [0, 0] (30 / 30), r = 0) ∧
    (∀ pt ∈ computeEnergyCurve [0, 0] 30, pt.energy = 0) ∧
    (∃ r ∈ rawRMSList [2, 2] (30 / 30), r ≠ 0) ∧
    (∃ pt ∈ computeEnergyCurve [2, 2] 30, pt.energy = 1) := by
  have h4 : jsSqrt 4 = 2 := by
    rw [show (4 : ℚ) = 2 * 2 by norm_num]
    exact jsSqrt_sq (by norm_num)
  have hsilent : ∀ r ∈ rawRMSList [0, 0] (30 / 30), r = 0 := by
    have h00 : rawRMSList [0, 0] (30 / 30) = [0, 0] := by
      rw [rawRMSList]
      norm_num [sumSquares, List.range_succ, jsSqrt_zero]
    rw [h00]
    intro r hr
    rcases List.mem_cons.mp hr with h | h
    · exact h
    · simpa using h
  have hloud : rawRMSList [2, 2] (30 / 30) = [2, 2] := by
    rw [rawRMSList]
    norm_num [sumSquares, List.range_succ, h4]
  have hex : ∃ r ∈ rawRMSList [2, 2] (30 / 30), r ≠ 0 := by
    rw [hloud]
    exact ⟨2, List.mem_cons_self _ _, by norm_num⟩
  exact ⟨hsilent, (computeEnergyCurve_normalization [0, 0] 30).2.1 hsilent, hex,
    (computeEnergyCurve_normalization [2, 2] 30).2.2 hex⟩

theorem doubleUp_ge {b : ℚ} (hb : 0 < b) : 80 ≤ doubleUp b := by
  induction b using doubleUp.induct with
  | case1 b h ih =>
    rw [doubleUp, dif_pos h]
    exact ih (by linarith [h.1])
  | case2 b h =>
    rw [doubleUp, dif_neg h]
    push_neg at h
    exact h hb

theorem doubleUp_lt {b : ℚ} (hb : b < 160) : doubleUp b < 160 := by
  induction b using doubleUp.induct with
  | case1 b h ih =>
    rw [doubleUp, dif_pos h]
    exact ih (by linarith [h.2])
  | case2 b h =>
    rw [doubleUp, dif_neg h]
    exact hb

theorem doubleUp_id {b : ℚ} (hb : 80 ≤ b) : doubleUp b = b := by
  rw [doubleUp, dif_neg]
  rintro ⟨-, h2⟩
  linarith

theorem halveDown_le (b : ℚ) : halveDown b ≤ 180 := by
  induction b using halveDown.induct with
  | case1 b h ih =>
    rw [halveDown, dif_pos h]
    exact ih
  | case2 b h =>
    rw [halveDown, dif_neg h]
    linarith [not_lt.mp h]

theorem halveDown_ge {b : ℚ} (hb : 80 ≤ b) : 80 ≤ halveDown b := by
  induction b using halveDown.induct with
  | case1 b h ih =>
    rw [halveDown, dif_pos h]
    exact ih (by linarith)
  | case2 b h =>
    rw [halveDown, dif_neg h]
    exact hb

theorem halveDown_id {b : ℚ} (hb : b ≤ 180) : halveDown b = b := by
  rw [halveDown, dif_neg (not_lt.mpr hb)]

theorem bestLagScan_fst_ge (diff : List ℚ) (m : ℕ) (lags : List ℕ) :
    ∀ st : ℕ × Option ℚ, m ≤ st.1 → (∀ l ∈ lags, m ≤ l) →
      m ≤ (lags.foldl (fun best lag =>
        let corr := autocorrAt diff lag
        match best.2 with
        | none => (lag, some corr)
        | some b => if b < corr then (lag, some corr) else best) st).1 := by
  induction lags with
  | nil => intro st h _; exact h
  | cons lg rest ih =>
    intro st hst hall
    rw [List.foldl_cons]
    apply ih
    · have hlg : m ≤ lg := hall lg (List.mem_cons_self _ _)
      cases h2 : st.2 with
      | none => simpa [h2] using hlg
      | some b =>
        simp only [h2]
        split
        · exact hlg
        · exact hst
    · exact fun l hl => hall l (List.mem_cons_of_mem _ hl)

theorem envelopeSR_ge {sampleRate : ℕ} (h : 100 ≤ sampleRate) :
    (100 : ℚ) ≤ envelopeSR sampleRate := by
  rw [envelopeSR, bpmHopSize]
  have hsr : (0 : ℚ) < (sampleRate : ℚ) := by
    have : 0 < sampleRate := by omega
    exact_mod_cast this
  have hhop1 : 1 ≤ sampleRate / 100 := (Nat.one_le_div_iff (by norm_num)).mpr h
  have hhop0 : (0 : ℚ) < ((sampleRate / 100 : ℕ) : ℚ) := by exact_mod_cast hhop1
  have hcast : ((sampleRate / 100 : ℕ) : ℚ) ≤ (sampleRate : ℚ) / 100 := Nat.cast_div_le
  rw [le_div_iff₀ hhop0]
  calc (100 : ℚ) * ((sampleRate / 100 : ℕ) : ℚ) ≤ 100 * ((sampleRate : ℚ) / 100) := by
        linarith
    _ = (sampleRate : ℚ) := by ring

theorem bpmMinLag_ge {sampleRate : ℕ} (h : 100 ≤ sampleRate) :
    30 ≤ bpmMinLag sampleRate := by
  rw [bpmMinLag]
  have he := envelopeSR_ge h
  have : (30 : ℤ) ≤ ⌊envelopeSR sampleRate * 60 / 200⌋ := by
    apply Int.le_floor.mpr
    push_cast
    linarith
  omega

theorem detectedBPMOf_pos (samples : List ℚ) {sampleRate : ℕ} (h : 100 ≤ sampleRate) :
    0 < detectedBPMOf samples sampleRate := by
  rw [detectedBPMOf]
  have he : (100 : ℚ) ≤ envelopeSR sampleRate := envelopeSR_ge h
  have hbest : bpmMinLag sampleRate ≤ bpmBestLag samples sampleRate := by
    rw [bpmBestLag, bestLagScan]
    apply bestLagScan_fst_ge
    · exact le_refl _
    · intro l hl
      rw [bpmLags] at hl
      rw [List.mem_range'_1] at hl
      exact hl.1
  have h30 := bpmMinLag_ge h
  have hbl : (0 : ℚ) < ((bpmBestLag samples sampleRate : ℕ) : ℚ) := by
    have : 0 < bpmBestLag samples sampleRate := by omega
    exact_mod_cast this
  exact div_pos (by linarith) hbl

/-- C4 — BPM folding: whenever the autocorrelation scan can run (`sampleRate ≥ 100`,
so a positive best lag exists and the raw detected BPM is positive), the returned
BPM lies in [80, 180]: the raw BPM is doubled while below 80 and halved while
above 180 before rounding; and the doubling/halving fold is the identity on any
value already in [80, 180] (idempotent once in range). -/
theorem detectBPM_range (samples : List ℚ) (sampleRate : ℕ) (h : 100 ≤ sampleRate) :
    (80 ≤ detectBPM samples sampleRate ∧ detectBPM samples sampleRate ≤ 180) ∧
    (∀ b : ℚ, 80 ≤ b → b ≤ 180 → halveDown (doubleUp b) = b) := by
  constructor
  · have hd := detectedBPMOf_pos samples h
    rw [detectBPM]
    have h1 : 80 ≤ doubleUp (detectedBPMOf samples sampleRate) := doubleUp_ge hd
    have h2 : 80 ≤ halveDown (doubleUp (detectedBPMOf samples sampleRate)) :=
      halveDown_ge h1
    have h3 : halveDown (doubleUp (detectedBPMOf samples sampleRate)) ≤ 180 :=
      halveDown_le _
    exact round_bounds (a := 80) (b := 180) (by push_cast; linarith)
      (by push_cast; linarith)
  · intro b hb1 hb2
    rw [doubleUp_id hb1, halveDown_id hb2]

/-- C4 witness: a standard 44.1 kHz sample rate, and the fold fixes 90 BPM. -/
theorem detectBPM_range_witness :
    100 ≤ 44100 ∧
    (80 ≤ detectBPM [] 44100 ∧ detectBPM [] 44100 ≤ 180) ∧
    halveDown (doubleUp 90) = 90 :=
  ⟨by norm_num, (detectBPM_range [] 44100 (by norm_num)).1,
    (detectBPM_range [] 44100 (by norm_num)).2 90 (by norm_num) (by norm_num)⟩

theorem beatStrength_mem_unit (samples : List ℚ) (sampleRate : ℕ) (t : ℚ) :
    0 ≤ beatStrength samples sampleRate t ∧ beatStrength samples sampleRate t ≤ 1 := by
  rw [beatStrength]
  constructor
  · exact le_min (by norm_num) (mul_nonneg (jsSqrt_nonneg _) (by norm_num))
  · exact min_le_left _ _

theorem beatLoop_getD (samples : List ℚ) (sampleRate : ℕ) (Δ d : ℚ) (time : ℚ) (k : ℕ) :
    ∀ j, j < (beatLoop samples sampleRate Δ d time k).length →
      ((beatLoop samples sampleRate Δ d time k).getD j default).time = time + j * Δ ∧
      ((beatLoop samples sampleRate Δ d time k).getD j default).isDownbeat =
        decide ((k + j) % 4 = 0) ∧
      ((beatLoop samples sampleRate Δ d time k).getD j default).strength =
        (if (k + j) % 4 = 0 then
          min 1 (beatStrength samples sampleRate (time + j * Δ) + 3 / 10)
         else beatStrength samples sampleRate (time + j * Δ)) := by
  induction time, k using beatLoop.induct samples sampleRate Δ d with
  | case1 time k h ih =>
    intro j hj
    rw [beatLoop, dif_pos h] at hj ⊢
    cases j with
    | zero =>
      refine ⟨?_, ?_, ?_⟩ <;>
        simp only [List.getD_cons_zero, Nat.cast_zero, zero_mul, add_zero, Nat.add_zero]
    | succ j =>
      rw [List.getD_cons_succ]
      rw [List.length_cons] at hj
      have hjlen : j < (beatLoop samples sampleRate Δ d (time + Δ) (k + 1)).length := by
        omega
      obtain ⟨h1, h2, h3⟩ := ih j hjlen
      have hidx : k + 1 + j = k + (j + 1) := by omega
      have htime : time + Δ + (j : ℚ) * Δ = time + ((j : ℕ) + 1 : ℕ) * Δ := by
        push_cast
        ring
      refine ⟨?_, ?_, ?_⟩
      · rw [h1, htime]
      · rw [h2, hidx]
      · rw [h3, hidx, htime]
  | case2 time k h =>
    intro j hj
    rw [beatLoop, dif_neg h] at hj
    cases hj

/-- C5 — Beat grid: for any sample buffer, sample rate, positive BPM and duration,
consecutive beat times differ by exactly `60 / bpm` (exact in rational arithmetic),
the beat at 0-based index `i` is a downbeat exactly when `i % 4 = 0`, every beat's
strength lies in [0, 1], and each downbeat's strength is the base strength boosted
by 0.3 and clamped to 1 (`min 1 (strength + 0.3)`). -/
theorem generateBeatGrid_spec (samples : List ℚ) (sampleRate : ℕ) (bpm duration : ℚ)
    (_hb : 0 < bpm) :
    (∀ i, i + 1 < (generateBeatGrid samples sampleRate bpm duration).length →
      ((generateBeatGrid samples sampleRate bpm duration).getD (i + 1) default).time =
        ((generateBeatGrid samples sampleRate bpm duration).getD i default).time +
          60 / bpm) ∧
    (∀ i, i < (generateBeatGrid samples sampleRate bpm duration).length →
      ((generateBeatGrid samples sampleRate bpm duration).getD i default).isDownbeat =
        decide (i % 4 = 0)) ∧
    (∀ ev ∈ generateBeatGrid samples sampleRate bpm duration,
      0 ≤ ev.strength ∧ ev.strength ≤ 1) ∧
    (∀ i, i < (generateBeatGrid samples sampleRate bpm duration).length →
      ((generateBeatGrid samples sampleRate bpm duration).getD i default).strength =
        (if i % 4 = 0 then
          min 1 (beatStrength samples sampleRate
            (((generateBeatGrid samples sampleRate bpm duration).getD i default).time) +
            3 / 10)
         else beatStrength samples sampleRate
            (((generateBeatGrid samples sampleRate bpm duration).getD i default).time))) := by
  have hspec := beatLoop_getD samples sampleRate (60 / bpm) duration
    (firstOnsetScan samples sampleRate) 0
  have hgrid : generateBeatGrid samples sampleRate bpm duration =
      beatLoop samples sampleRate (60 / bpm) duration
        (firstOnsetScan samples sampleRate) 0 := by
    rw [generateBeatGrid]
  refine ⟨?_, ?_, ?_, ?_⟩
  · intro i hi
    rw [hgrid] at hi ⊢
    obtain ⟨h1, -, -⟩ := hspec (i + 1) hi
    obtain ⟨h1', -, -⟩ := hspec i (by omega)
    rw [h1, h1']
    push_cast
    ring
  · intro i hi
    rw [hgrid] at hi ⊢
    obtain ⟨-, h2, -⟩ := hspec i hi
    rw [h2, Nat.zero_add]
  · intro ev hev
    rw [hgrid] at hev
    obtain ⟨i, hi, hgi⟩ := List.mem_iff_getElem.mp hev
    have hgd : (beatLoop samples sampleRate (60 / bpm) duration
        (firstOnsetScan samples sampleRate) 0).getD i default = ev := by
      rw [List.getD_eq_getElem _ _ hi, hgi]
    obtain ⟨-, -, h3⟩ := hspec i hi
    rw [hgd] at h3
    rw [h3]
    have hbs := beatStrength_mem_unit samples sampleRate
      (firstOnsetScan samples sampleRate + i * (60 / bpm))
    split
    · constructor
      · exact le_min (by norm_num) (by linarith [hbs.1])
      · exact min_le_left _ _
    · exact hbs
  · intro i hi
    rw [hgrid] at hi ⊢
    obtain ⟨h1, -, h3⟩ := hspec i hi
    rw [h3, Nat.zero_add, h1]

/-- C5 witness: a concrete 120 BPM grid satisfies the strength bounds. -/
theorem generateBeatGrid_spec_witness :
    (0 : ℚ) < 120 ∧
    ∀ ev ∈ generateBeatGrid [] 1000 120 1, 0 ≤ ev.strength ∧ ev.strength ≤ 1 :=
  ⟨by norm_num, (generateBeatGrid_spec [] 1000 120 1 (by norm_num)).2.2.1⟩

theorem getD_map_range {α : Type} (f : ℕ → α) {n i : ℕ} (d : α) (h : i < n) :
    ((List.range n).map f).getD i d = f i := by
  rw [List.getD_eq_getElem _ _ (by simpa using h)]
  simp

theorem smoothPath_length (points : List PathPoint) (w : ℕ) :
    (smoothPath points w).length = points.length := by
  rw [smoothPath]
  simp

theorem smoothPath_time (points : List PathPoint) (w : ℕ) {i : ℕ}
    (h : i < points.length) :
    ((smoothPath points w).getD i default).time = (points.getD i default).time := by
  rw [smoothPath]
  rw [getD_map_range _ default h]

theorem rawPathPoints_eq (m : SongMap) (hd : 0 ≤ m.duration) :
    rawPathPoints m = (List.range ((⌊m.duration * 15⌋).toNat)).map (fun (i : ℕ) =>
      ({ time := (i : ℚ) / 15
         position :=
          { x := mapRange (clamp (interpolatePitch ((i : ℚ) / 15) m.pitchContour
                    (m.pitchContour.map (fun p => p.time))) (pitchRange m.pitchContour).1
                    (pitchRange m.pitchContour).2) (pitchRange m.pitchContour).1
                  (pitchRange m.pitchContour).2 (-1) 1 * LATERAL_RANGE *
                  (1 / 2 + m.danceability * (1 / 2))
            y := VERTICAL_BASE + interpolateEnergy ((i : ℚ) / 15) m.energyCurve
                  (m.energyCurve.map (fun p => p.time)) * VERTICAL_RANGE
            z := -((i : ℚ) / 15) * FORWARD_SPEED } } : PathPoint)) := by
  rw [rawPathPoints]
  apply List.takeWhile_eq_self_iff.mpr
  intro x hx
  obtain ⟨i, hi, rfl⟩ := List.mem_map.mp hx
  rw [List.mem_range] at hi
  simp only [decide_eq_true_eq]
  have hn : ((⌊m.duration * 15⌋).toNat : ℚ) ≤ m.duration * 15 := by
    have hge : (0 : ℤ) ≤ ⌊m.duration * 15⌋ := Int.floor_nonneg.mpr (by nlinarith)
    have heq : ((⌊m.duration * 15⌋).toNat : ℤ) = ⌊m.duration * 15⌋ :=
      Int.toNat_of_nonneg hge
    have hq : ((⌊m.duration * 15⌋).toNat : ℚ) = ((⌊m.duration * 15⌋ : ℤ) : ℚ) := by
      exact_mod_cast congrArg (fun z : ℤ => (z : ℚ)) heq
    rw [hq]
    exact Int.floor_le _
  have hiq : (i : ℚ) < ((⌊m.duration * 15⌋).toNat : ℚ) := by exact_mod_cast hi
  have : (i : ℚ) < m.duration * 15 := lt_of_lt_of_le hiq hn
  linarith [this]

theorem rawPathPoints_length (m : SongMap) (hd : 0 ≤ m.duration) :
    (rawPathPoints m).length = (⌊m.duration * 15⌋).toNat := by
  rw [rawPathPoints_eq m hd]
  simp

theorem rawPathPoints_time (m : SongMap) (hd : 0 ≤ m.duration) {i : ℕ}
    (h : i < (rawPathPoints m).length) :
    ((rawPathPoints m).getD i default).time = (i : ℚ) / 15 := by
  rw [rawPathPoints_length m hd] at h
  rw [rawPathPoints_eq m hd, getD_map_range _ default h]

/-- C8 — Path generator shape: for a SongMap with non-negative duration, the
generated ideal path has exactly `⌊duration * 15⌋` points (the `time > duration`
break never fires), its `time` fields are strictly increasing, and both the length
and every `time` field coincide with those of the raw pre-smoothing sample
sequence — the two moving-average passes change only positions. -/
theorem generateIdealPath_spec (m : SongMap) (hd : 0 ≤ m.duration) :
    (generateIdealPath m).length = (⌊m.duration * 15⌋).toNat ∧
    (∀ i, i + 1 < (generateIdealPath m).length →
      ((generateIdealPath m).getD i default).time <
        ((generateIdealPath m).getD (i + 1) default).time) ∧
    (generateIdealPath m).length = (rawPathPoints m).length ∧
    (∀ i, i < (generateIdealPath m).length →
      ((generateIdealPath m).getD i default).time =
        ((rawPathPoints m).getD i default).time) := by
  have hlen : (generateIdealPath m).length = (rawPathPoints m).length := by
    rw [generateIdealPath, smoothPath_length, smoothPath_length]
  have htime : ∀ i, i < (generateIdealPath m).length →
      ((generateIdealPath m).getD i default).time =
        ((rawPathPoints m).getD i default).time := by
    intro i hi
    rw [hlen] at hi
    have hi1 : i < (smoothPath (rawPathPoints m) SMOOTHING_WINDOW).length := by
      rw [smoothPath_length]
      exact hi
    rw [generateIdealPath, smoothPath_time _ _ hi1, smoothPath_time _ _ hi]
  refine ⟨by rw [hlen, rawPathPoints_length m hd], ?_, hlen, htime⟩
  intro i hi
  have hi' : i < (generateIdealPath m).length := by omega
  rw [htime i hi', htime (i + 1) hi]
  rw [hlen, rawPathPoints_length m hd] at hi hi'
  rw [rawPathPoints_time m hd (by rw [rawPathPoints_length m hd]; omega),
    rawPathPoints_time m hd (by rw [rawPathPoints_length m hd]; omega)]
  have : (i : ℚ) < ((i : ℚ) + 1) := by linarith
  push_cast
  linarith

/-- C8 witness: a 1-second map with empty analysis data. -/
theorem generateIdealPath_spec_witness :
    (0 : ℚ) ≤ (1 : ℚ) ∧
    (generateIdealPath { danceability := 0, duration := 1, pitchContour := [], energyCurve := [] }).length = (⌊(1 : ℚ) * 15⌋).toNat :=
  ⟨by norm_num,
    (generateIdealPath_spec { danceability := 0, duration := 1, pitchContour := [], energyCurve := [] } (by norm_num)).1⟩

/-- Contiguity chain: the sections start at `a`, each section begins where the
previous one ended, and the last one ends at `b` (`a = b` for the empty list). -/
def sectionChain (a : ℚ) : List Section → ℚ → Prop
  | [], b => a = b
  | sec :: rest, b => sec.startTime = a ∧ sectionChain sec.endTime rest b

theorem sectionChain_append {a b : ℚ} {l : List Section} (sec : Section)
    (h : sectionChain a l b) (hs : sec.startTime = b) :
    sectionChain a (l ++ [sec]) sec.endTime := by
  induction l generalizing a with
  | nil =>
    simp only [sectionChain] at h
    exact ⟨by rw [hs, h], rfl⟩
  | cons s rest ih =>
    obtain ⟨h1, h2⟩ := h
    exact ⟨h1, ih h2⟩

theorem sectionChain_head {a b : ℚ} {l : List Section} (h : sectionChain a l b)
    (hne : l ≠ []) : (l.getD 0 default).startTime = a := by
  cases l with
  | nil => exact absurd rfl hne
  | cons s rest => exact h.1

theorem sectionChain_adjacent {a b : ℚ} {l : List Section} (h : sectionChain a l b) :
    ∀ i, i + 1 < l.length →
      (l.getD i default).endTime = (l.getD (i + 1) default).startTime := by
  induction l generalizing a with
  | nil => intro i hi; simp at hi
  | cons s rest ih =>
    obtain ⟨h1, h2⟩ := h
    intro i hi
    rw [List.length_cons] at hi
    cases i with
    | zero =>
      rw [List.getD_cons_zero, List.getD_cons_succ]
      have hne : rest ≠ [] := by
        intro hr
        rw [hr] at hi
        simp at hi
      exact (sectionChain_head h2 hne).symm
    | succ i =>
      rw [List.getD_cons_succ, List.getD_cons_succ]
      exact ih h2 i (by omega)

theorem sectionChain_last {a b : ℚ} {l : List Section} (h : sectionChain a l b)
    (hne : l ≠ []) : (l.getD (l.length - 1) default).endTime = b := by
  induction l generalizing a with
  | nil => exact absurd rfl hne
  | cons s rest ih =>
    obtain ⟨-, h2⟩ := h
    cases rest with
    | nil =>
      simp only [sectionChain] at h2
      simp [h2]
    | cons r rest' =>
      have hlen : (s :: r :: rest').length - 1 = (r :: rest').length - 1 + 1 := by
        simp
      rw [hlen, List.getD_cons_succ]
      exact ih h2 (List.cons_ne_nil _ _)

theorem smoothedEnergy_length (energyCurve : List EnergyPoint) :
    (smoothedEnergy energyCurve).length = energyCurve.length := by
  rw [smoothedEnergy]
  simp

theorem getD_eq_getD {α : Type} (l : List α) (d1 d2 : α) {i : ℕ} (h : i < l.length) :
    l.getD i d1 = l.getD i d2 := by
  rw [List.getD_eq_getElem _ _ h, List.getD_eq_getElem _ _ h]

theorem segFold_inv (curve : List EnergyPoint) (smoothed : List ℚ) (duration : ℚ) :
    ∀ (l : List ℕ) (st : SegState), (∀ i ∈ l, i < curve.length) →
      sectionChain ((curve.getD 0 { time := 0, energy := 0 }).time) st.sections
        ((curve.getD st.sectionStart { time := 0, energy := 0 }).time) →
      st.sectionStart < curve.length →
      sectionChain ((curve.getD 0 { time := 0, energy := 0 }).time)
        (l.foldl (segStep curve smoothed duration) st).sections
        ((curve.getD (l.foldl (segStep curve smoothed duration) st).sectionStart
          { time := 0, energy := 0 }).time) ∧
      (l.foldl (segStep curve smoothed duration) st).sectionStart < curve.length := by
  intro l
  induction l with
  | nil => intro st _ hch hlt; exact ⟨hch, hlt⟩
  | cons i rest ih =>
    intro st hl hch hlt
    rw [List.foldl_cons]
    have hi : i < curve.length := hl i (List.mem_cons_self _ _)
    apply ih
    · exact fun j hj => hl j (List.mem_cons_of_mem _ hj)
    · rw [segStep]
      split
      · simp only
        have happ := sectionChain_append
          ({ startTime := (curve.getD st.sectionStart { time := 0, energy := 0 }).time
             endTime := (curve.getD i { time := duration, energy := 0 }).time
             label := labelFromEnergy
               (((smoothed.drop st.sectionStart).take (i - st.sectionStart)).sum /
                 ((i - st.sectionStart : ℕ) : ℚ)) st.sections.length
             energy := ((smoothed.drop st.sectionStart).take (i - st.sectionStart)).sum /
               ((i - st.sectionStart : ℕ) : ℚ) } : Section) hch rfl
        have hdd : (curve.getD i { time := duration, energy := 0 }).time =
            (curve.getD i { time := 0, energy := 0 }).time := by
          rw [getD_eq_getD curve _ _ hi]
        rw [← hdd]
        exact happ
      · exact hch
    · rw [segStep]
      split
      · exact hi
      · exact hlt

theorem segmentSections_chain (curve : List EnergyPoint) (duration : ℚ)
    (h10 : 10 ≤ curve.length) :
    sectionChain ((curve.getD 0 { time := 0, energy := 0 }).time)
      (segmentSections curve duration) duration := by
  rw [segmentSections, if_neg (by omega)]
  have hinv : sectionChain ((curve.getD 0 { time := 0, energy := 0 }).time)
      (segLoopState curve duration).sections
      ((curve.getD (segLoopState curve duration).sectionStart
        { time := 0, energy := 0 }).time) ∧
      (segLoopState curve duration).sectionStart < curve.length := by
    rw [segLoopState]
    apply segFold_inv
    · intro i hi
      rw [List.mem_range'_1] at hi
      have := hi.2
      rw [smoothedEnergy_length] at this
      omega
    · exact rfl
    · show 0 < curve.length
      omega
  have happ := sectionChain_append (finalSection curve duration) hinv.1 rfl
  exact happ

/-- C6 counterexample: a 10-point energy curve whose first point has time 5 — the
sections are contiguous and exhaustive but the first section starts at 5, not 0. -/
theorem segmentSections_startTime_counterexample :
    ((segmentSections (List.replicate 10 { time := 5, energy := 1 / 2 }) 7).getD 0
      default).startTime = 5 ∧ (5 : ℚ) ≠ 0 := by
  have h10 : 10 ≤ (List.replicate 10 ({ time := 5, energy := 1 / 2 } : EnergyPoint)).length := by
    simp
  have hch := segmentSections_chain (List.replicate 10 { time := 5, energy := 1 / 2 }) 7 h10
  have hne : segmentSections (List.replicate 10 { time := 5, energy := 1 / 2 }) 7 ≠ [] := by
    rw [segmentSections, if_neg (by omega)]
    simp
  have hhead := sectionChain_head hch hne
  rw [hhead]
  constructor
  · rw [List.getD_eq_getElem _ _ (by simp : (0 : ℕ) < _)]
    simp
  · norm_num

/-- C6 (amended) — Section coverage: for every energy curve and duration,
`segmentSections` returns a non-empty list whose sections are contiguous
(`sections[i].endTime = sections[i+1].startTime`) and whose last section ends at
`duration`; for a curve with fewer than 10 samples the result is exactly one
`intro` section spanning [0, duration]; and for a curve with at least 10 samples
the first section starts at the first curve point's time (which is 0 for curves
produced by `computeEnergyCurve`, but not for arbitrary curves). -/
theorem segmentSections_coverage (curve : List EnergyPoint) (duration : ℚ) :
    segmentSections curve duration ≠ [] ∧
    (∀ i, i + 1 < (segmentSections curve duration).length →
      ((segmentSections curve duration).getD i default).endTime =
        ((segmentSections curve duration).getD (i + 1) default).startTime) ∧
    ((segmentSections curve duration).getD
      ((segmentSections curve duration).length - 1) default).endTime = duration ∧
    (curve.length < 10 → segmentSections curve duration =
      [{ startTime := 0, endTime := duration, label := "intro", energy := 1 / 2 }]) ∧
    (10 ≤ curve.length → ((segmentSections curve duration).getD 0 default).startTime =
      (curve.getD 0 { time := 0, energy := 0 }).time) := by
  by_cases h10 : curve.length < 10
  · rw [segmentSections, if_pos h10]
    refine ⟨by simp, ?_, by simp, fun _ => rfl, fun hc => absurd hc (by omega)⟩
    intro i hi
    simp at hi
  · push_neg at h10
    have hch := segmentSections_chain curve duration h10
    have hne : segmentSections curve duration ≠ [] := by
      rw [segmentSections, if_neg (by omega)]
      simp
    exact ⟨hne, sectionChain_adjacent hch, sectionChain_last hch hne,
      fun hc => absurd hc (by omega), fun _ => sectionChain_head hch hne⟩

/-- C6 witness: both branches of the amended claim at concrete inputs. -/
theorem segmentSections_coverage_witness :
    (([] : List EnergyPoint).length < 10) ∧
    segmentSections [] 3 =
      [{ startTime := 0, endTime := 3, label := "intro", energy := 1 / 2 }] ∧
    10 ≤ (List.replicate 12 ({ time := 0, energy := 1 } : EnergyPoint)).length ∧
    ((segmentSections (List.replicate 12 { time := 0, energy := 1 }) 4).getD 0
      default).startTime =
      ((List.replicate 12 ({ time := 0, energy := 1 } : EnergyPoint)).getD 0
        { time := 0, energy := 0 }).time := by
  refine ⟨by simp, (segmentSections_coverage [] 3).2.2.2.1 (by simp), by simp, ?_⟩
  exact (segmentSections_coverage (List.replicate 12 { time := 0, energy := 1 }) 4).2.2.2.2
    (by simp)

end Hanabii
